import Mathlib

/-!
Shallow embedding of the LXMF FastAPI bridge (source file `lxmfapi.py`):
the address codec used by `LXMFAPI.send`, the `POST /send` handler, the
bounded outbound queue drained by the background `process_queue` thread,
the inbound receipt deduplication and subscriber fan-out performed by
`LXMFAPI._message_received`, and the announce throttling in
`LXMFAPI._announce`.  External collaborators (the RNS/LXMF transport,
identity recall, the filesystem holding the announce file) appear as
parameters or as explicit effect traces.
-/

/-! ### Address codec: Python `bytes.fromhex` as used by `LXMFAPI.send` -/

/-- Test for an ASCII hexadecimal digit, as accepted by Python `bytes.fromhex`. -/
def isHexDigitChar (c : Char) : Bool :=
  c.isDigit || ('a' ≤ c && c ≤ 'f') || ('A' ≤ c && c ≤ 'F')

/-- Numeric value of a hexadecimal digit character. -/
def hexVal (c : Char) : Nat :=
  if c.isDigit then c.toNat - '0'.toNat
  else if 'a' ≤ c && c ≤ 'f' then c.toNat - 'a'.toNat + 10
  else c.toNat - 'A'.toNat + 10

/-- ASCII whitespace as skipped by CPython `bytes.fromhex` between byte pairs. -/
def isAsciiSpace (c : Char) : Bool :=
  c = ' ' || c = '\t' || c = '\n' || c = '\x0b' || c = '\x0c' || c = '\r'

/-- Decode a list of characters into bytes, two hex digits per byte, ASCII
whitespace allowed between byte pairs (but not inside a pair).  Result `none`
models Python `bytes.fromhex` raising `ValueError`. -/
def fromhexChars : List Char → Option (List Nat)
  | [] => some []
  | c1 :: rest =>
    if isAsciiSpace c1 then fromhexChars rest
    else
      match rest with
      | [] => none
      | c2 :: rest2 =>
        if isHexDigitChar c1 && isHexDigitChar c2 then
          (fromhexChars rest2).map (fun bs => (hexVal c1 * 16 + hexVal c2) :: bs)
        else none

/-- Python `bytes.fromhex` on a string. -/
def fromhex (s : String) : Option (List Nat) :=
  fromhexChars s.data

/-- Hexadecimal digit character (lowercase) for a value below 16. -/
def hexDigit (n : Nat) : Char :=
  if n < 10 then Char.ofNat ('0'.toNat + n) else Char.ofNat ('a'.toNat + (n - 10))

/-- Model of `RNS.hexrep(data, delimit=False)`: lowercase hex text of a byte
list, two characters per byte, no delimiters. -/
def hexrep (bs : List Nat) : String :=
  ⟨bs.foldr (fun b acc => hexDigit (b / 16) :: hexDigit (b % 16) :: acc) []⟩

/-! ### Outbound send: `LXMFAPI.send` and the `POST /send` handler -/

/-- Constant `RNS.Reticulum.TRUNCATED_HASHLENGTH // 8`: the truncated-hash
byte length of the network, 16 bytes on a stock Reticulum network. -/
def TRUNCATED_HASHBYTES : Nat := 16

/-- Model of `LXMF.LXMessage` as constructed by `LXMFAPI.send`: destination
hash and recalled identity, payload text, title, and the
`try_propagation_on_fail` retry-policy flag set to `True`.  The recalled
identity is an abstract handle (a number).  The desired method is always
`LXMessage.DIRECT` and is omitted. -/
structure LXMessage where
  destHash : List Nat
  destIdentity : Nat
  content : String
  title : String
  tryPropagationOnFail : Bool
deriving DecidableEq

/-- Observable effects of `LXMFAPI.send`, in program order. -/
inductive SendAction where
  | logError (s : String)
  | logInfo (s : String)
  | requestPath (h : List Nat)
  | queuePut (m : LXMessage)
deriving DecidableEq

/-- Model of `LXMFAPI.send(destination, message, title)`.  Parameter `recallFn`
is the external `RNS.Identity.recall`; the result is the effect trace, in
program order.  Every failure branch logs and returns without raising: bad
hex logs "Invalid destination hash", a wrong byte count logs "Invalid
destination hash length", an unrecalled identity logs, fires one
`RNS.Transport.request_path(hash)` and logs again; only the success branch
puts an `LXMessage` on the outbound queue. -/
def send (recallFn : List Nat → Option Nat) (destination message title : String) :
    List SendAction :=
  match fromhex destination with
  | none => [SendAction.logError "Invalid destination hash"]
  | some hash =>
    if hash.length ≠ TRUNCATED_HASHBYTES then
      [SendAction.logError "Invalid destination hash length"]
    else
      match recallFn hash with
      | none =>
        [SendAction.logError "Could not recall an Identity for the requested address.",
         SendAction.requestPath hash,
         SendAction.logInfo "OK, a path was requested."]
      | some ident =>
        [SendAction.queuePut ⟨hash, ident, message, title, true⟩]

/-- An HTTP response: status code and body text. -/
structure HTTPResponse where
  status : Nat
  body : String
deriving DecidableEq

/-- Model of the `POST /send` handler `send_message`.  Because `api.send`
never raises (every failure branch inside it logs and returns `None`), the
`except` branch that would produce `HTTPException(status_code=400)` is
unreachable, and the handler always answers HTTP 200 with body
"message queued" while the effects are those of `send`. -/
def send_message (recallFn : List Nat → Option Nat) (destination message title : String) :
    HTTPResponse × List SendAction :=
  (⟨200, "message queued"⟩, send recallFn destination message title)

/-- Messages that a `send` effect trace puts on the outbound queue, in order:
the queue grows by exactly these. -/
def puts (as : List SendAction) : List LXMessage :=
  as.foldr (fun a acc => match a with | SendAction.queuePut m => m :: acc | _ => acc) []

/-- Number of `RNS.Transport.request_path` calls in a `send` effect trace. -/
def pathRequests (as : List SendAction) : Nat :=
  (as.filter (fun a => match a with | SendAction.requestPath _ => true | _ => false)).length

/-! ### Inbound receipt deduplication (inlined in `LXMFAPI._message_received`) -/

/-- The check-and-record step of `_message_received`: a receipt already
present returns duplicate (`false`) with the list untouched; otherwise the
receipt is appended and, when the length exceeds 100, the oldest entry
(index 0) is popped. -/
def checkAndRecord (receipts : List String) (receipt : String) : Bool × List String :=
  if receipt ∈ receipts then (false, receipts)
  else (true,
    if (receipts ++ [receipt]).length > 100 then (receipts ++ [receipt]).tail
    else receipts ++ [receipt])

/-- Fold `checkAndRecord` over a list of incoming receipt ids. -/
def recordAll (receipts : List String) (ids : List String) : List String :=
  ids.foldl (fun l i => (checkAndRecord l i).2) receipts

/-! ### Subscriber fan-out: `LXMFAPI._message_received` -/

/-- Inbound message as handed to `_message_received` by the LXMF router:
raw source and message hashes (byte lists) and the UTF-8 decoded payload
text. -/
structure InboundMessage where
  source_hash : List Nat
  content : String
  hash : List Nat

/-- The event object built for each subscriber callback: hex sender token,
content text, hex receipt token.  The raw `lxmf` handle and the `reply`
closure also present in the source object are omitted (no claim mentions
them). -/
structure Event where
  sender : String
  content : String
  hash : String
deriving DecidableEq

/-- Event carried to the callbacks for an inbound message. -/
def mkEvent (m : InboundMessage) : Event :=
  ⟨hexrep m.source_hash, m.content, hexrep m.hash⟩

/-- The fan-out loop `for callback in self.delivery_callbacks: callback(msg)`.
A callback is modelled as `Event → Bool`, `false` meaning the call raises.
The result lists the invocations made, in order: `(e, true)` means a callback
accepted event `e`; `(e, false)` means a callback raised, which aborts the
loop, because the source has no try/except around the callback call. -/
def fanoutInvoked : List (Event → Bool) → Event → List (Event × Bool)
  | [], _ => []
  | cb :: rest, e => if cb e then (e, true) :: fanoutInvoked rest e else [(e, false)]

/-- True iff an exception escaped the fan-out loop into the transport's
inbound delivery callback (the router called `_message_received` directly). -/
def fanoutEscaped (invocations : List (Event × Bool)) : Bool :=
  invocations.any (fun p => !p.2)

/-- Mutable state read and written by `_message_received`: the receipts
recency list. -/
structure RecvState where
  receipts : List String
deriving DecidableEq

/-- Model of `LXMFAPI._message_received(message)`: compute the receipt token,
run check-and-record on the receipts list, and only for a new receipt run the
fan-out loop over the registered callbacks.  The receipts list is updated
before any callback is invoked, so the new state stands even when a callback
raises mid fan-out. -/
def message_received (cbs : List (Event → Bool)) (st : RecvState) (m : InboundMessage) :
    RecvState × List (Event × Bool) :=
  if (checkAndRecord st.receipts (hexrep m.hash)).1 then
    (⟨(checkAndRecord st.receipts (hexrep m.hash)).2⟩, fanoutInvoked cbs (mkEvent m))
  else (⟨(checkAndRecord st.receipts (hexrep m.hash)).2⟩, [])

/-! ### Announce throttling: `LXMFAPI._announce` -/

/-- Class attribute `LXMFAPI.announce_time`: 600 seconds.  The `announce`
constructor argument is accepted but never assigned to it. -/
def announce_time : Nat := 600

/-- Observable effects of `_announce`, in program order. -/
inductive AnnounceAction where
  | persistDeadline (t : Nat)
  | announceNet
  | logRecent
deriving DecidableEq

/-- The persisted deadline as read by `_announce` from the announce file
(`none` = file missing): a missing file is read as the sentinel 1. -/
def readDeadline : Option Nat → Nat
  | some t => t
  | none => 1

/-- Model of `LXMFAPI._announce()` at current time `now` with persisted
announce file `file`; `interval` is `self.announce_time`.  Returns the new
file contents and the effect trace in program order: when the deadline has
not passed, only a debug log; otherwise the new deadline `now + interval` is
written to the file first and the transport announce primitive
`self.local.announce()` runs after the write. -/
def announceStep (interval now : Nat) (file : Option Nat) :
    Option Nat × List AnnounceAction :=
  if readDeadline file > now then (file, [AnnounceAction.logRecent])
  else (some (now + interval),
        [AnnounceAction.persistDeadline (now + interval), AnnounceAction.announceNet])

/-- Number of transport announce calls in an `_announce` effect trace. -/
def countAnnounces (as : List AnnounceAction) : Nat :=
  (as.filter (fun a => match a with | AnnounceAction.announceNet => true | _ => false)).length

/-! ### Outbound queue and dispatcher: `Queue(maxsize = 5)` and `process_queue` -/

/-- Capacity of the outbound queue: `Queue(maxsize = 5)`. -/
def queueCapacity : Nat := 5

/-- Operations on the outbound queue: a `/send` caller reaching
`self.queue.put(lxm)`, or one iteration of the `process_queue` dispatcher
thread (which dequeues at most one message, then calls `_announce` and
sleeps 10 s). -/
inductive QOp where
  | enqueue (m : LXMessage)
  | tick

/-- Queue state: pending messages (front at head) and the messages handed to
`router.handle_outbound`, in order. -/
structure QState where
  queue : List LXMessage
  sent : List LXMessage
deriving DecidableEq

/-- One step of the queue system.  `queue.put` on a full queue blocks the
calling thread: modelled as the operation completing with no state change
and no message dropped (the caller retries the same operation when space
frees).  A dispatcher tick takes the front message, if any, and hands it to
the transport send primitive. -/
def qstep (st : QState) : QOp → QState
  | QOp.enqueue m =>
    if st.queue.length < queueCapacity then { st with queue := st.queue ++ [m] } else st
  | QOp.tick =>
    match st.queue with
    | [] => st
    | m :: rest => { queue := rest, sent := st.sent ++ [m] }

/-- Run a sequence of operations from the empty initial state. -/
def qrun (ops : List QOp) : QState := ops.foldl qstep ⟨[], []⟩

/-- The enqueue operations that found space, in operation order (a blocked
caller keeps waiting and adds nothing). -/
def acceptedEnqueues : QState → List QOp → List LXMessage
  | _, [] => []
  | st, QOp.enqueue m :: ops =>
    if st.queue.length < queueCapacity then
      m :: acceptedEnqueues (qstep st (QOp.enqueue m)) ops
    else acceptedEnqueues st ops
  | st, QOp.tick :: ops => acceptedEnqueues (qstep st QOp.tick) ops

/-! ### Helper lemmas -/

/-- Check-and-record on a receipt already present: duplicate, list untouched. -/
theorem checkAndRecord_of_mem (l : List String) (r : String) (h : r ∈ l) :
    checkAndRecord l r = (false, l) := by
  unfold checkAndRecord
  rw [if_pos h]

/-- Check-and-record fst is false exactly on receipts already present. -/
theorem checkAndRecord_fst_false_iff (l : List String) (r : String) :
    (checkAndRecord l r).1 = false ↔ r ∈ l := by
  unfold checkAndRecord
  by_cases h : r ∈ l
  · simp [h]
  · simp [h]

/-- Check-and-record fst is true exactly on fresh receipts. -/
theorem checkAndRecord_fst_true_iff (l : List String) (r : String) :
    (checkAndRecord l r).1 = true ↔ r ∉ l := by
  unfold checkAndRecord
  by_cases h : r ∈ l
  · simp [h]
  · simp [h]

/-- Check-and-record on a fresh receipt, described with drop: appending and
popping the head when over 100 is dropping the overflow off the front. -/
theorem checkAndRecord_of_not_mem (l : List String) (r : String) (h : r ∉ l)
    (hlen : l.length ≤ 100) :
    checkAndRecord l r = (true, (l ++ [r]).drop (l.length + 1 - 100)) := by
  unfold checkAndRecord
  rw [if_neg h]
  by_cases h100 : l.length = 100
  · have hgt : (l ++ [r]).length > 100 := by
      simp only [List.length_append, List.length_singleton, h100]
      omega
    have h1 : l.length + 1 - 100 = 1 := by omega
    rw [if_pos hgt, h1, List.drop_one]
  · have hngt : ¬(l ++ [r]).length > 100 := by
      simp only [List.length_append, List.length_singleton]
      omega
    have h0 : l.length + 1 - 100 = 0 := by omega
    rw [if_neg hngt, h0, List.drop_zero]

/-- The recorded receipt is a member of the updated list. -/
theorem mem_checkAndRecord_self (l : List String) (r : String) :
    r ∈ (checkAndRecord l r).2 := by
  unfold checkAndRecord
  by_cases h : r ∈ l
  · simp [h]
  · rw [if_neg h]
    by_cases hgt : (l ++ [r]).length > 100
    · simp only [hgt, if_true]
      rcases l with _ | ⟨a, l2⟩
      · simp at hgt
      · simp
    · simp only [hgt, if_false]
      simp

/-- Folding fresh (pairwise-distinct, not-yet-seen) receipts over the recency
list keeps exactly the newest 100 of the concatenation. -/
theorem recordAll_fresh (fs : List String) (l : List String)
    (hnd : (l ++ fs).Nodup) (hl : l.length ≤ 100) :
    recordAll l fs = (l ++ fs).drop (l.length + fs.length - 100) := by
  induction fs generalizing l with
  | nil =>
    simp only [recordAll, List.foldl_nil, List.append_nil, List.length_nil, Nat.add_zero]
    have h0 : l.length - 100 = 0 := by omega
    rw [h0, List.drop_zero]
  | cons f fs ih =>
    have hf : f ∉ l := by
      rcases List.nodup_append.mp hnd with ⟨_, _, hdisj⟩
      intro hmem
      exact hdisj hmem (List.mem_cons_self f fs)
    by_cases h100 : l.length = 100
    · rcases l with _ | ⟨a, l2⟩
      · simp at h100
      · have hl2 : l2.length = 99 := by
          simp only [List.length_cons] at h100
          omega
        have hsnd : (checkAndRecord (a :: l2) f).2 = l2 ++ [f] := by
          rw [checkAndRecord_of_not_mem _ _ hf hl]
          have h1 : (a :: l2).length + 1 - 100 = 1 := by
            simp only [List.length_cons]
            omega
          rw [h1, List.drop_one, List.cons_append, List.tail_cons]
        have hnd' : (a :: (l2 ++ f :: fs)).Nodup := by
          rw [List.cons_append] at hnd
          exact hnd
        have hnd2 : ((l2 ++ [f]) ++ fs).Nodup := by
          rw [List.append_assoc, List.singleton_append]
          exact (List.nodup_cons.mp hnd').2
        have hlen2 : (l2 ++ [f]).length ≤ 100 := by
          simp only [List.length_append, List.length_singleton]
          omega
        have hstep : recordAll (a :: l2) (f :: fs)
            = recordAll (checkAndRecord (a :: l2) f).2 fs := rfl
        rw [hstep, hsnd, ih _ hnd2 hlen2]
        have e1 : (l2 ++ [f]).length + fs.length - 100 = fs.length := by
          simp only [List.length_append, List.length_singleton]
          omega
        have e2 : (a :: l2).length + (f :: fs).length - 100 = fs.length + 1 := by
          simp only [List.length_cons]
          omega
        rw [e1, e2, List.append_assoc, List.singleton_append, List.cons_append,
          List.drop_succ_cons]
    · have hlt : l.length < 100 := lt_of_le_of_ne hl h100
      have hsnd : (checkAndRecord l f).2 = l ++ [f] := by
        rw [checkAndRecord_of_not_mem _ _ hf hl]
        have h0 : l.length + 1 - 100 = 0 := by omega
        rw [h0, List.drop_zero]
      have hnd2 : ((l ++ [f]) ++ fs).Nodup := by
        rw [List.append_assoc, List.singleton_append]
        exact hnd
      have hlen2 : (l ++ [f]).length ≤ 100 := by
        simp only [List.length_append, List.length_singleton]
        omega
      have hstep : recordAll l (f :: fs) = recordAll (checkAndRecord l f).2 fs := rfl
      rw [hstep, hsnd, ih _ hnd2 hlen2]
      have e1 : (l ++ [f]).length + fs.length - 100 = l.length + (f :: fs).length - 100 := by
        have hla : (l ++ [f]).length = l.length + 1 := by simp
        rw [hla, List.length_cons]
        omega
      rw [e1, List.append_assoc, List.singleton_append]

/-- When every registered callback accepts, the fan-out loop invokes each one
exactly once, in registration order, with the same event. -/
theorem fanoutInvoked_all_accept (cbs : List (Event → Bool)) (e : Event)
    (h : ∀ cb ∈ cbs, cb e = true) :
    fanoutInvoked cbs e = List.replicate cbs.length (e, true) := by
  induction cbs with
  | nil => rfl
  | cons cb rest ih =>
    have hcb : cb e = true := h cb (List.mem_cons_self cb rest)
    have hrest : ∀ c ∈ rest, c e = true := fun c hc => h c (List.mem_cons_of_mem cb hc)
    simp only [fanoutInvoked, hcb, if_true, ih hrest, List.length_cons,
      List.replicate_succ]

/-- Queue-length invariant of a single step: the queue never exceeds its
capacity. -/
theorem qstep_queue_le (st : QState) (op : QOp) (h : st.queue.length ≤ queueCapacity) :
    (qstep st op).queue.length ≤ queueCapacity := by
  cases op with
  | enqueue m =>
    simp only [qstep]
    by_cases hlt : st.queue.length < queueCapacity
    · rw [if_pos hlt]
      simp only [List.length_append, List.length_cons, List.length_nil]
      omega
    · rw [if_neg hlt]
      exact h
  | tick =>
    simp only [qstep]
    cases hq : st.queue with
    | nil => exact h
    | cons m rest =>
      rw [hq] at h
      simp only [List.length_cons] at h
      show rest.length ≤ queueCapacity
      omega

/-- Queue-length invariant over any operation sequence. -/
theorem qsteps_queue_le (ops : List QOp) (st : QState) (h : st.queue.length ≤ queueCapacity) :
    (ops.foldl qstep st).queue.length ≤ queueCapacity := by
  induction ops generalizing st with
  | nil => exact h
  | cons op ops ih => exact ih _ (qstep_queue_le st op h)

/-- Conservation: across any operation sequence, sent-then-pending always
equals the starting sent-then-pending followed by the accepted enqueues in
operation order.  No message is dropped, duplicated, or reordered. -/
theorem qsteps_fifo (ops : List QOp) (st : QState) :
    (ops.foldl qstep st).sent ++ (ops.foldl qstep st).queue
      = st.sent ++ st.queue ++ acceptedEnqueues st ops := by
  induction ops generalizing st with
  | nil => simp [acceptedEnqueues]
  | cons op ops ih =>
    cases op with
    | enqueue m =>
      by_cases hlt : st.queue.length < queueCapacity
      · have hstep : qstep st (QOp.enqueue m)
            = { st with queue := st.queue ++ [m] } := by
          simp only [qstep]
          rw [if_pos hlt]
        have hacc : acceptedEnqueues st (QOp.enqueue m :: ops)
            = m :: acceptedEnqueues (qstep st (QOp.enqueue m)) ops := by
          simp only [acceptedEnqueues]
          rw [if_pos hlt]
        rw [List.foldl_cons, ih, hacc, hstep]
        simp [List.append_assoc]
      · have hstep : qstep st (QOp.enqueue m) = st := by
          simp only [qstep]
          rw [if_neg hlt]
        have hacc : acceptedEnqueues st (QOp.enqueue m :: ops)
            = acceptedEnqueues st ops := by
          simp only [acceptedEnqueues]
          rw [if_neg hlt]
        rw [List.foldl_cons, hstep, ih, hacc]
    | tick =>
      have hacc : acceptedEnqueues st (QOp.tick :: ops)
          = acceptedEnqueues (qstep st QOp.tick) ops := by
        simp only [acceptedEnqueues]
      cases hq : st.queue with
      | nil =>
        have hstep : qstep st QOp.tick = st := by
          simp only [qstep, hq]
        rw [List.foldl_cons, hstep, ih, hacc, hstep, hq]
      | cons m rest =>
        have hstep : qstep st QOp.tick = ⟨rest, st.sent ++ [m]⟩ := by
          simp only [qstep, hq]
        rw [List.foldl_cons, ih, hacc, hstep]
        simp

/-! ### Claims -/

/-- C1, counterexample.  A `POST /send` whose destination token is not valid
hex ("zz") is answered with HTTP 200 and body "message queued", not with
status 400, although nothing is enqueued; a well-formed token of wrong
length ("0000", 2 bytes instead of 16) likewise gets HTTP 200.  This refutes
the claimed 400 response. -/
theorem claim_C1_counterexample :
    (send_message (fun _ => none) "zz" "hello" "Reply").1.status = 200
    ∧ (send_message (fun _ => none) "zz" "hello" "Reply").1.status ≠ 400
    ∧ puts (send_message (fun _ => none) "zz" "hello" "Reply").2 = []
    ∧ (send_message (fun _ => none) "0000" "hello" "Reply").1.status = 200
    ∧ puts (send_message (fun _ => none) "0000" "hello" "Reply").2 = [] := by
  refine ⟨rfl, by decide, rfl, rfl, rfl⟩

/-- C1, amended.  For every `POST /send` request whose destination token has
invalid encoding or decodes to a length different from the truncated-hash
length, nothing is enqueued (the effect trace contains no queue put), but the
HTTP response is status 200 with body "message queued": the error is only
logged inside `send`, never surfaced to the HTTP caller as a 400. -/
theorem claim_C1_thm (recallFn : List Nat → Option Nat)
    (destination message title : String)
    (hbad : fromhex destination = none ∨
      ∃ hash, fromhex destination = some hash ∧ hash.length ≠ TRUNCATED_HASHBYTES) :
    (send_message recallFn destination message title).1 = ⟨200, "message queued"⟩
    ∧ puts (send_message recallFn destination message title).2 = [] := by
  unfold send_message send
  rcases hbad with h | ⟨hash, h1, h2⟩
  · rw [h]
    exact ⟨rfl, rfl⟩
  · rw [h1]
    dsimp only
    rw [if_pos h2]
    exact ⟨rfl, rfl⟩

/-- C1, witness for the amended theorem at the concrete wrong-length
destination "0000". -/
theorem claim_C1_witness :
    (send_message (fun _ => none) "0000" "msg" "Reply").1 = ⟨200, "message queued"⟩
    ∧ puts (send_message (fun _ => none) "0000" "msg" "Reply").2 = [] :=
  claim_C1_thm (fun _ => none) "0000" "msg" "Reply"
    (Or.inr ⟨[0, 0], by decide, by decide⟩)

/-- C5, counterexample.  A `POST /send` whose destination is well formed and
of correct length (16 zero bytes) but whose identity is unresolved does skip
the enqueue and does fire exactly one path request, yet it is answered with
HTTP 200 "message queued", not the claimed HTTP 400/info. -/
theorem claim_C5_counterexample :
    (send_message (fun _ => none) "00000000000000000000000000000000" "hi" "Reply").1.status
      = 200
    ∧ (send_message (fun _ => none) "00000000000000000000000000000000" "hi" "Reply").1.status
      ≠ 400
    ∧ puts (send_message (fun _ => none) "00000000000000000000000000000000" "hi" "Reply").2
      = []
    ∧ pathRequests
        (send_message (fun _ => none) "00000000000000000000000000000000" "hi" "Reply").2
      = 1 := by
  refine ⟨rfl, by decide, rfl, rfl⟩

/-- C5, amended.  For every `POST /send` request whose destination token is
well formed and of correct length but whose identity is unresolved, nothing
is enqueued and exactly one asynchronous path-discovery request is
triggered, but the failure is not reported to the HTTP caller: the response
is status 200 with body "message queued" (the failure is only logged). -/
theorem claim_C5_thm (recallFn : List Nat → Option Nat)
    (destination message title : String) (hash : List Nat)
    (hhex : fromhex destination = some hash)
    (hlen : hash.length = TRUNCATED_HASHBYTES)
    (hunres : recallFn hash = none) :
    puts (send_message recallFn destination message title).2 = []
    ∧ pathRequests (send_message recallFn destination message title).2 = 1
    ∧ (send_message recallFn destination message title).1 = ⟨200, "message queued"⟩ := by
  unfold send_message send
  rw [hhex]
  dsimp only
  have hne : ¬hash.length ≠ TRUNCATED_HASHBYTES := by
    rw [hlen]
    exact fun hc => hc rfl
  rw [if_neg hne, hunres]
  exact ⟨rfl, rfl, rfl⟩

/-- C5, witness for the amended theorem at the concrete unresolved
destination of 16 zero bytes. -/
theorem claim_C5_witness :
    puts (send_message (fun _ => none) "00000000000000000000000000000000" "m" "T").2 = []
    ∧ pathRequests
        (send_message (fun _ => none) "00000000000000000000000000000000" "m" "T").2 = 1
    ∧ (send_message (fun _ => none) "00000000000000000000000000000000" "m" "T").1
      = ⟨200, "message queued"⟩ :=
  claim_C5_thm (fun _ => none) "00000000000000000000000000000000" "m" "T"
    (List.replicate 16 0) (by decide) (by decide) rfl

/-- C9.  After every check-and-record operation the recency list holds at
most 100 entries; when insertion of a new id makes it exceed 100 the oldest
entry (the head) is evicted, pure FIFO; a lookup that finds an existing id
leaves the list untouched (no LRU-by-access reordering); below the bound a
new id is only appended. -/
theorem claim_C9_thm (receipts : List String) (r : String)
    (hlen : receipts.length ≤ 100) :
    (checkAndRecord receipts r).2.length ≤ 100
    ∧ (r ∈ receipts → (checkAndRecord receipts r).2 = receipts)
    ∧ (r ∉ receipts → receipts.length = 100 →
        (checkAndRecord receipts r).2 = receipts.tail ++ [r])
    ∧ (r ∉ receipts → receipts.length < 100 →
        (checkAndRecord receipts r).2 = receipts ++ [r]) := by
  by_cases h : r ∈ receipts
  · rw [checkAndRecord_of_mem _ _ h]
    exact ⟨hlen, fun _ => rfl, fun hn => absurd h hn, fun hn => absurd h hn⟩
  · rw [checkAndRecord_of_not_mem _ _ h hlen]
    refine ⟨?_, fun hm => absurd hm h, fun _ h100 => ?_, fun _ hlt => ?_⟩
    · rw [List.length_drop, List.length_append, List.length_singleton]
      omega
    · have h1 : receipts.length + 1 - 100 = 1 := by omega
      rw [h1, List.drop_append_of_le_length (by omega), List.drop_one]
    · have h0 : receipts.length + 1 - 100 = 0 := by omega
      rw [h0, List.drop_zero]

/-- C9, witness at a concrete one-element list and fresh receipt. -/
theorem claim_C9_witness :
    (checkAndRecord ["aa"] "bb").2.length ≤ 100
    ∧ ("bb" ∈ ["aa"] → (checkAndRecord ["aa"] "bb").2 = ["aa"])
    ∧ ("bb" ∉ ["aa"] → List.length ["aa"] = 100 →
        (checkAndRecord ["aa"] "bb").2 = List.tail ["aa"] ++ ["bb"])
    ∧ ("bb" ∉ ["aa"] → List.length ["aa"] < 100 →
        (checkAndRecord ["aa"] "bb").2 = ["aa"] ++ ["bb"]) :=
  claim_C9_thm ["aa"] "bb" (by decide)

/-- Count of transport announces made by one throttler call: none when the
persisted deadline is still in the future, exactly one otherwise. -/
theorem countAnnounces_announceStep (interval now : Nat) (file : Option Nat) :
    countAnnounces (announceStep interval now file).2
      = if readDeadline file > now then 0 else 1 := by
  by_cases h : readDeadline file > now
  · simp only [announceStep, if_pos h]
    rfl
  · simp only [announceStep, if_neg h]
    rfl

/-- File contents after one throttler call: unchanged while throttled,
otherwise the new deadline. -/
theorem announceStep_fst (interval now : Nat) (file : Option Nat) :
    (announceStep interval now file).1
      = if readDeadline file > now then file else some (now + interval) := by
  by_cases h : readDeadline file > now
  · simp only [announceStep, if_pos h]
  · simp only [announceStep, if_neg h]

/-- C4.  For every two calls to the announce throttler within the configured
interval of each other, the transport announce primitive runs at most once
across the two calls: if the first call announces it pushes the persisted
deadline past the second call time; if it does not, only the second can
announce. -/
theorem claim_C4_thm (interval t1 t2 : Nat) (file : Option Nat)
    (h12 : t1 ≤ t2) (hwin : t2 < t1 + interval) :
    countAnnounces (announceStep interval t1 file).2
      + countAnnounces (announceStep interval t2 (announceStep interval t1 file).1).2
      ≤ 1 := by
  rw [countAnnounces_announceStep, countAnnounces_announceStep, announceStep_fst]
  by_cases h1 : readDeadline file > t1
  · simp only [if_pos h1]
    by_cases h2 : readDeadline file > t2
    · rw [if_pos h2]
      omega
    · rw [if_neg h2]
  · simp only [if_neg h1]
    have h2 : readDeadline (some (t1 + interval)) > t2 := by
      simp only [readDeadline]
      omega
    rw [if_pos h2]

/-- C4, witness: the throttler called at times 1000 and 1500 with a missing
announce file and the default 600 s interval announces exactly once. -/
theorem claim_C4_witness :
    countAnnounces (announceStep 600 1000 none).2
      + countAnnounces (announceStep 600 1500 (announceStep 600 1000 none).1).2
      ≤ 1 :=
  claim_C4_thm 600 1000 1500 none (by decide) (by decide)

/-- C7.  When the persisted deadline is absent (read as the sentinel 1) or
has passed, one throttler call writes the new deadline now + interval to the
announce file first and only then invokes the transport announce primitive:
the effect trace is exactly persist followed by announce, and the persisted
value is now + interval.  The interval default, class attribute
`announce_time`, is 600 seconds. -/
theorem claim_C7_thm (interval now : Nat) (file : Option Nat)
    (hdue : readDeadline file ≤ now) :
    (announceStep interval now file).2
      = [AnnounceAction.persistDeadline (now + interval), AnnounceAction.announceNet]
    ∧ (announceStep interval now file).1 = some (now + interval)
    ∧ readDeadline none = 1
    ∧ announce_time = 600 := by
  have hngt : ¬readDeadline file > now := by omega
  refine ⟨?_, ?_, rfl, rfl⟩
  · simp only [announceStep, if_neg hngt]
  · simp only [announceStep, if_neg hngt]

/-- C7, witness: a missing announce file at time 5 with the default interval
is persisted as 605 before the announce primitive runs. -/
theorem claim_C7_witness :
    (announceStep 600 5 none).2
      = [AnnounceAction.persistDeadline (5 + 600), AnnounceAction.announceNet]
    ∧ (announceStep 600 5 none).1 = some (5 + 600)
    ∧ readDeadline none = 1
    ∧ announce_time = 600 :=
  claim_C7_thm 600 5 none (by decide)

/-- A subscriber callback that accepts every event (concrete instance). -/
def cbAccept : Event → Bool := fun _ => true

/-- A subscriber callback that raises on every event (concrete instance). -/
def cbRaise : Event → Bool := fun _ => false

/-- A sample event (concrete instance). -/
def eSample : Event := ⟨"aa", "hello", "bb"⟩

/-- A sample inbound message: source byte 0xaa, hash byte 0xbb. -/
def mSample : InboundMessage := ⟨[170], "hello", [187]⟩

/-- Fan-out over accepting callbacks followed by a raising one: the accepting
ones each get the event, the raising one aborts the loop, and nothing after
it is invoked. -/
theorem fanoutInvoked_append_fail (pre : List (Event → Bool)) (bad : Event → Bool)
    (post : List (Event → Bool)) (e : Event)
    (hpre : ∀ cb ∈ pre, cb e = true) (hbad : bad e = false) :
    fanoutInvoked (pre ++ bad :: post) e
      = List.replicate pre.length (e, true) ++ [(e, false)] := by
  induction pre with
  | nil =>
    simp [fanoutInvoked, hbad]
  | cons cb pre ih =>
    have hcb : cb e = true := hpre cb (List.mem_cons_self cb pre)
    have hpre2 : ∀ c ∈ pre, c e = true :=
      fun c hc => hpre c (List.mem_cons_of_mem cb hc)
    simp [fanoutInvoked, hcb, ih hpre2, List.replicate_succ]

/-- C2, counterexample.  With two registered subscribers where the first
raises, the fan-out makes a single invocation: the second subscriber never
receives the event, and the exception escapes into the inbound delivery
callback.  This refutes both halves of the claim. -/
theorem claim_C2_counterexample :
    fanoutInvoked [cbRaise, cbAccept] eSample = [(eSample, false)]
    ∧ (fanoutInvoked [cbRaise, cbAccept] eSample).length
      ≠ List.length [cbRaise, cbAccept]
    ∧ fanoutEscaped (fanoutInvoked [cbRaise, cbAccept] eSample) = true := by
  refine ⟨rfl, by decide, rfl⟩

/-- C2, amended.  When one subscriber callback raises during fan-out, the
subscribers registered before it each still receive the event, but every
subscriber registered after it receives nothing, and the exception
propagates out of the fan-out into the transport inbound delivery callback;
the failing subscriber is not deregistered.  There is no isolation: the
invocation list is exactly the accepting ones followed by the raising one. -/
theorem claim_C2_thm (pre post : List (Event → Bool)) (bad : Event → Bool) (e : Event)
    (hpre : ∀ cb ∈ pre, cb e = true) (hbad : bad e = false) :
    fanoutInvoked (pre ++ bad :: post) e
      = List.replicate pre.length (e, true) ++ [(e, false)]
    ∧ fanoutEscaped (fanoutInvoked (pre ++ bad :: post) e) = true := by
  have hmain := fanoutInvoked_append_fail pre bad post e hpre hbad
  refine ⟨hmain, ?_⟩
  rw [hmain]
  simp [fanoutEscaped]

/-- C2, witness for the amended theorem: accept, raise, accept. -/
theorem claim_C2_witness :
    fanoutInvoked ([cbAccept] ++ cbRaise :: [cbAccept]) eSample
      = List.replicate (List.length [cbAccept]) (eSample, true) ++ [(eSample, false)]
    ∧ fanoutEscaped (fanoutInvoked ([cbAccept] ++ cbRaise :: [cbAccept]) eSample)
      = true :=
  claim_C2_thm [cbAccept] [cbAccept] cbRaise eSample
    (fun cb hcb => by
      rw [List.mem_singleton] at hcb
      subst hcb
      rfl)
    rfl

/-- C8.  For an inbound message with a new receipt id and callbacks that all
accept, every currently registered subscriber is invoked exactly once, in
order, with one event, and that event carries the hex sender token, the
content, and the hex receipt token of the inbound message. -/
theorem claim_C8_thm (cbs : List (Event → Bool)) (st : RecvState) (m : InboundMessage)
    (hnew : hexrep m.hash ∉ st.receipts)
    (hok : ∀ cb ∈ cbs, cb (mkEvent m) = true) :
    (message_received cbs st m).2 = List.replicate cbs.length (mkEvent m, true)
    ∧ (mkEvent m).sender = hexrep m.source_hash
    ∧ (mkEvent m).content = m.content
    ∧ (mkEvent m).hash = hexrep m.hash := by
  have h1 : (checkAndRecord st.receipts (hexrep m.hash)).1 = true :=
    (checkAndRecord_fst_true_iff _ _).mpr hnew
  refine ⟨?_, rfl, rfl, rfl⟩
  simp only [message_received, h1, if_true]
  exact fanoutInvoked_all_accept cbs (mkEvent m) hok

/-- C8, witness: one accepting subscriber, empty recency list, sample
message. -/
theorem claim_C8_witness :
    (message_received [cbAccept] ⟨[]⟩ mSample).2
      = List.replicate (List.length [cbAccept]) (mkEvent mSample, true)
    ∧ (mkEvent mSample).sender = hexrep mSample.source_hash
    ∧ (mkEvent mSample).content = mSample.content
    ∧ (mkEvent mSample).hash = hexrep mSample.hash :=
  claim_C8_thm [cbAccept] ⟨[]⟩ mSample (by decide)
    (fun cb hcb => by
      rw [List.mem_singleton] at hcb
      subst hcb
      rfl)

/-- C10.  The receipt id is recorded before any callback runs: whatever the
callbacks do (here: arbitrary, possibly raising), the post-state contains
the id, and a redelivery of the same message against that state is dropped
as a duplicate with no subscriber invocation at all.  Delivery is therefore
at-most-once under callback failure, not exactly-once. -/
theorem claim_C10_thm (cbs cbs2 : List (Event → Bool)) (st : RecvState)
    (m : InboundMessage) (hnew : hexrep m.hash ∉ st.receipts) :
    hexrep m.hash ∈ (message_received cbs st m).1.receipts
    ∧ message_received cbs2 (message_received cbs st m).1 m
      = ((message_received cbs st m).1, []) := by
  have h1 : (checkAndRecord st.receipts (hexrep m.hash)).1 = true :=
    (checkAndRecord_fst_true_iff _ _).mpr hnew
  have hst : (message_received cbs st m).1
      = ⟨(checkAndRecord st.receipts (hexrep m.hash)).2⟩ := by
    simp [message_received, h1]
  have hmem : hexrep m.hash ∈ (checkAndRecord st.receipts (hexrep m.hash)).2 :=
    mem_checkAndRecord_self _ _
  constructor
  · rw [hst]
    exact hmem
  · rw [hst]
    have h2 : checkAndRecord (checkAndRecord st.receipts (hexrep m.hash)).2 (hexrep m.hash)
        = (false, (checkAndRecord st.receipts (hexrep m.hash)).2) :=
      checkAndRecord_of_mem _ _ hmem
    simp [message_received, h2]

/-- C10, witness: first delivery to a raising subscriber, redelivery with an
accepting subscriber is dropped. -/
theorem claim_C10_witness :
    hexrep mSample.hash ∈ (message_received [cbRaise] ⟨[]⟩ mSample).1.receipts
    ∧ message_received [cbAccept] (message_received [cbRaise] ⟨[]⟩ mSample).1 mSample
      = ((message_received [cbRaise] ⟨[]⟩ mSample).1, []) :=
  claim_C10_thm [cbRaise] [cbAccept] ⟨[]⟩ mSample (by decide)

/-- A sample outbound message (concrete instance). -/
def mQ : LXMessage := ⟨[0], 0, "a", "t", true⟩

/-- C6.  The outbound queue has fixed capacity 5; an enqueue on a full queue
blocks the caller, completing with no state change (nothing dropped, nothing
grown past capacity); from the empty initial state the queue never exceeds
capacity; the messages handed to the transport send primitive followed by
those still pending are exactly the accepted enqueues in enqueue order
(strict FIFO); and one dispatcher tick hands over at most one message. -/
theorem claim_C6_thm (ops : List QOp) (st : QState) (m : LXMessage)
    (hfull : queueCapacity ≤ st.queue.length) :
    queueCapacity = 5
    ∧ (qrun ops).queue.length ≤ queueCapacity
    ∧ qstep st (QOp.enqueue m) = st
    ∧ (qrun ops).sent ++ (qrun ops).queue = acceptedEnqueues ⟨[], []⟩ ops
    ∧ (qstep st QOp.tick).sent.length ≤ st.sent.length + 1 := by
  refine ⟨rfl, ?_, ?_, ?_, ?_⟩
  · exact qsteps_queue_le ops ⟨[], []⟩ (by decide)
  · simp only [qstep]
    rw [if_neg (by omega)]
  · have h := qsteps_fifo ops ⟨[], []⟩
    dsimp only at h
    simp only [List.nil_append] at h
    exact h
  · simp only [qstep]
    cases hq : st.queue with
    | nil =>
      show st.sent.length ≤ st.sent.length + 1
      omega
    | cons a rest =>
      show (st.sent ++ [a]).length ≤ st.sent.length + 1
      simp

/-- C6, witness: a full queue of five copies blocks a sixth enqueue; an
enqueue then a tick from empty forwards that one message. -/
theorem claim_C6_witness :
    queueCapacity = 5
    ∧ (qrun [QOp.enqueue mQ, QOp.tick]).queue.length ≤ queueCapacity
    ∧ qstep ⟨List.replicate 5 mQ, []⟩ (QOp.enqueue mQ)
      = (⟨List.replicate 5 mQ, []⟩ : QState)
    ∧ (qrun [QOp.enqueue mQ, QOp.tick]).sent ++ (qrun [QOp.enqueue mQ, QOp.tick]).queue
      = acceptedEnqueues ⟨[], []⟩ [QOp.enqueue mQ, QOp.tick]
    ∧ (qstep ⟨List.replicate 5 mQ, []⟩ QOp.tick).sent.length ≤ 0 + 1 :=
  claim_C6_thm [QOp.enqueue mQ, QOp.tick] ⟨List.replicate 5 mQ, []⟩ mQ (by decide)

/-- C3.  A fresh receipt id recorded into the recency list (entries pairwise
distinct, bounded by 100) is treated as new exactly once: a second delivery
in immediate succession is a duplicate, it stays a duplicate while fewer
than 100 subsequent distinct fresh ids arrive, and at exactly 100 such ids
it has been evicted and is treated as new again.  Fan-out, and hence
subscriber delivery, happens only on a new receipt. -/
theorem claim_C3_thm (l : List String) (rid : String) (fs : List String)
    (hnd : (l ++ rid :: fs).Nodup) (hl : l.length ≤ 100) :
    (checkAndRecord l rid).1 = true
    ∧ (checkAndRecord (checkAndRecord l rid).2 rid).1 = false
    ∧ (fs.length < 100 →
        (checkAndRecord (recordAll (checkAndRecord l rid).2 fs) rid).1 = false)
    ∧ (fs.length = 100 →
        (checkAndRecord (recordAll (checkAndRecord l rid).2 fs) rid).1 = true) := by
  have hid_notl : rid ∉ l := by
    rcases List.nodup_append.mp hnd with ⟨_, _, hdisj⟩
    exact fun hm => hdisj hm (List.mem_cons_self rid fs)
  have hfst : (checkAndRecord l rid).1 = true :=
    (checkAndRecord_fst_true_iff _ _).mpr hid_notl
  have hmem : rid ∈ (checkAndRecord l rid).2 := mem_checkAndRecord_self _ _
  have hdup : (checkAndRecord (checkAndRecord l rid).2 rid).1 = false :=
    (checkAndRecord_fst_false_iff _ _).mpr hmem
  have hchain : recordAll (checkAndRecord l rid).2 fs = recordAll l (rid :: fs) := rfl
  have hfold : recordAll l (rid :: fs)
      = (l ++ rid :: fs).drop (l.length + (rid :: fs).length - 100) :=
    recordAll_fresh (rid :: fs) l hnd hl
  refine ⟨hfst, hdup, ?_, ?_⟩
  · intro hlt
    have hn : l.length + (rid :: fs).length - 100 ≤ l.length := by
      simp only [List.length_cons]
      omega
    have hmem2 : rid ∈ (l ++ rid :: fs).drop (l.length + (rid :: fs).length - 100) := by
      rw [List.drop_append_of_le_length hn]
      exact List.mem_append_right _ (List.mem_cons_self rid fs)
    rw [hchain, hfold]
    exact (checkAndRecord_fst_false_iff _ _).mpr hmem2
  · intro heq
    have hn : l.length + (rid :: fs).length - 100 = l.length + 1 := by
      simp only [List.length_cons]
      omega
    have hdropeq : (l ++ rid :: fs).drop (l.length + 1) = fs := by
      have h1 : (l ++ rid :: fs).drop (l.length + 1) = (rid :: fs).drop 1 :=
        List.drop_append 1
      rw [h1, List.drop_one, List.tail_cons]
    have hnotmem : rid ∉ fs := by
      rcases List.nodup_append.mp hnd with ⟨_, hnd2, _⟩
      exact (List.nodup_cons.mp hnd2).1
    rw [hchain, hfold, hn, hdropeq]
    exact (checkAndRecord_fst_true_iff _ _).mpr hnotmem

/-- C3, witness: a fresh id into an empty list, with one subsequent distinct
id. -/
theorem claim_C3_witness :
    (checkAndRecord [] "r1").1 = true
    ∧ (checkAndRecord (checkAndRecord [] "r1").2 "r1").1 = false
    ∧ (List.length ["r2"] < 100 →
        (checkAndRecord (recordAll (checkAndRecord [] "r1").2 ["r2"]) "r1").1 = false)
    ∧ (List.length ["r2"] = 100 →
        (checkAndRecord (recordAll (checkAndRecord [] "r1").2 ["r2"]) "r1").1 = true) :=
  claim_C3_thm [] "r1" ["r2"] (by decide) (by decide)
